import Mathlib

/-!
# Wayback archival relay: orchestration layer

A shallow embedding of

* `publish/github.go`          (`NewGitHub`, `gitHub.Publish`, `gitHub.toIssues`),
* `template/render/relaychat.go` (`Relaychat.ForPublish`),
* `service/anonymity/tor.go`   (`Tor.Serve`, `Tor.process`, `Tor.archive`, `transform`).

Go maps are association lists in iteration order, side effects are explicit
event traces, and the goroutines of `Tor.archive` are driven by an explicit
schedule over their shared-memory loads and stores.
-/

/-! ## Strings -/

namespace unicode

/-- Go `unicode.IsSpace`: the Latin-1 spaces and the code points of category Z. -/
def IsSpace (r : Char) : Bool :=
  let n := r.toNat
  (9 ≤ n && n ≤ 13) || n == 32 || n == 0x85 || n == 0xA0 || n == 0x1680 ||
  (0x2000 ≤ n && n ≤ 0x200A) || n == 0x2028 || n == 0x2029 || n == 0x202F ||
  n == 0x205F || n == 0x3000

end unicode

namespace strings

/-- Go `strings.TrimSpace`: drop leading and trailing white space. -/
def TrimSpace (s : String) : String :=
  ⟨((s.data.dropWhile unicode.IsSpace).rdropWhile unicode.IsSpace)⟩

end strings

namespace bytes

/-- Go `bytes.TrimRight`: drop every trailing character contained in `cutset`. -/
def TrimRight (s : String) (cutset : String) : String :=
  ⟨s.data.rdropWhile (fun ch => decide (ch ∈ cutset.data))⟩

end bytes

/-! ## Shared record type -/

namespace wayback

/-- Go `wayback.Collect`.  Its declaration is outside the given sources; the
fields are the ones the sources read or write (`Arc`, `Dst`, `Ext`).  The type
of `Dst` is a parameter: `tor.go` stores the broker mapping in it, the
relay-chat template prints it as text. -/
structure Collect (δ : Type) where
  Arc : String
  Dst : δ
  Ext : String
  deriving DecidableEq, Repr

end wayback

/-! ## Configuration -/

namespace config

/-- Go `config.Options`, restricted to the accessors the sources call.  `Slots` is the
`map[string]bool` of archive slots, listed in iteration order. -/
structure Options where
  GitHubToken : String
  GitHubOwner : String
  GitHubRepo : String
  HasDebugMode : Bool
  Slots : List (String × Bool)
  PublishToChannel : Bool
  PublishToIssues : Bool
  PublishToMastodon : Bool
  PublishToTwitter : Bool
  TorPrivKey : String
  TorrcFile : String
  TorLocalPort : Nat
  TorRemotePorts : List Nat
  deriving DecidableEq, Repr

/-- The slot declarations of package `config` used by `tor.go`: the four slot
identifiers and the functions `SlotName` and `SlotExtra`.  They are declared outside
the given sources and are taken as a parameter. -/
structure SlotTable where
  SLOT_IA : String
  SLOT_IS : String
  SLOT_IP : String
  SLOT_PH : String
  SlotName : String → String
  SlotExtra : String → String

end config

/-! ## `publish/github.go` -/

namespace metrics

/-- The status labels passed to `metrics.IncrementPublish`. -/
inductive Status where
  | StatusRequest
  | StatusSuccess
  | StatusFailure
  deriving DecidableEq, Repr

/-- The channel labels passed to `metrics.IncrementPublish`. -/
inductive Channel where
  | PublishGithub
  | PublishOther (label : String)
  deriving DecidableEq, Repr

end metrics

namespace publish

open metrics config

/-- The HTTP client handed to `github.NewClient`: either the caller's or the
basic-auth client built from owner and token. -/
inductive HttpClient where
  | given (id : Nat)
  | basicAuth (username password : String)
  deriving DecidableEq, Repr

/-- Go `github.Client` as far as the publisher is concerned. -/
structure Client where
  httpClient : HttpClient
  deriving DecidableEq, Repr

/-- Go `gitHub`; `client = none` is the nil pointer left by `new(gitHub)`. -/
structure gitHub where
  client : Option Client
  deriving DecidableEq, Repr

/-- Observable effects of the publisher: metric increments and GitHub API calls. -/
inductive Event where
  | IncrementPublish (channel : Channel) (status : Status)
  | UsersGet
  | IssuesCreate (owner repo title body : String)
  deriving DecidableEq, Repr

/-- The collaborators of `Publish` that live outside `github.go`:
`bundle`, `render.ForPublish(&render.GitHub{..}).String()`, `render.Title`,
the formatted clock reading and whether `Issues.Create` comes back without error. -/
structure Env (Bundle Col : Type) where
  bundle : List Col → Bundle
  renderGitHub : List Col → Bundle → String
  Title : Bundle → String
  now : String
  createOk : String → String → String → String → Bool

/-- Go `NewGitHub`. -/
def NewGitHub (opts : Options) (httpClient : Option HttpClient) : gitHub :=
  if opts.GitHubToken = "" ∨ opts.GitHubOwner = "" then
    { client := none }
  else
    let httpClient := match httpClient with
      | none => HttpClient.basicAuth opts.GitHubOwner opts.GitHubToken
      | some c => c
    { client := some { httpClient := httpClient } }

/-- Go `gitHub.toIssues`: the result and the API calls made, in order. -/
def toIssues {Bundle Col : Type} (opts : Options) (env : Env Bundle Col) (gh : gitHub)
    (bnd : Bundle) (text : String) : Bool × List Event :=
  match gh.client with
  | none => (false, [])
  | some _ =>
    if text = "" then (false, [])
    else
      let dbg : List Event := if opts.HasDebugMode then [Event.UsersGet] else []
      let t := strings.TrimSpace (env.Title bnd)
      let t := if t = "" then "Published at " ++ env.now else t
      let call := Event.IssuesCreate opts.GitHubOwner opts.GitHubRepo t text
      if env.createOk opts.GitHubOwner opts.GitHubRepo t text then
        (true, dbg ++ [call])
      else
        (false, dbg ++ [call])

/-- Go `gitHub.Publish`: the trace of metric increments and API calls. -/
def Publish {Bundle Col : Type} (opts : Options) (env : Env Bundle Col) (gh : gitHub)
    (cols : List Col) : List Event :=
  let t0 := [Event.IncrementPublish Channel.PublishGithub Status.StatusRequest]
  if cols.length = 0 then
    t0
  else
    let bnd := env.bundle cols
    let txt := env.renderGitHub cols bnd
    let r := toIssues opts env gh bnd txt
    if r.1 then
      t0 ++ r.2 ++ [Event.IncrementPublish Channel.PublishGithub Status.StatusSuccess]
    else
      t0 ++ r.2 ++ [Event.IncrementPublish Channel.PublishGithub Status.StatusFailure]

/-- The metric increments of a trace, in order. -/
def metricsOf : List Event → List (Channel × Status)
  | [] => []
  | Event.IncrementPublish c s :: es => (c, s) :: metricsOf es
  | _ :: es => metricsOf es

/-- The GitHub API calls of a trace, in order. -/
def apiCallsOf : List Event → List Event
  | [] => []
  | Event.IncrementPublish _ _ :: es => apiCallsOf es
  | e :: es => e :: apiCallsOf es

/-- Number of `status` increments recorded for the GitHub channel. -/
def countStatus (status : Status) (tr : List Event) : Nat :=
  (metricsOf tr).count (Channel.PublishGithub, status)

/-- A sample environment: rendering yields a fixed body, issue creation succeeds. -/
def sampleEnv : Env Unit String where
  bundle := fun _ => ()
  renderGitHub := fun _ _ => "body"
  Title := fun _ => "title"
  now := "2021-01-01T00:00:00"
  createOk := fun _ _ _ _ => true

/-- Sample options with credentials present and the slots IA and IS enabled. -/
def sampleOpts : Options where
  GitHubToken := "tok"
  GitHubOwner := "me"
  GitHubRepo := "repo"
  HasDebugMode := false
  Slots := [("ia", true), ("is", true), ("ip", false), ("ph", false)]
  PublishToChannel := true
  PublishToIssues := true
  PublishToMastodon := false
  PublishToTwitter := false
  TorPrivKey := ""
  TorrcFile := ""
  TorLocalPort := 8964
  TorRemotePorts := [80]

/-- Sample options with the token missing and debug mode on. -/
def noTokenOpts : Options :=
  { sampleOpts with GitHubToken := "", HasDebugMode := true }

end publish

/-! ## `template/render/relaychat.go` -/

namespace render

/-- Go `Relaychat`: the collects to render (`Data` is not read by `ForPublish`). -/
structure Relaychat where
  Cols : List (wayback.Collect String)
  deriving DecidableEq, Repr

/-- One iteration of the template body `{{ $.Arc | name }}:- • {{ $.Dst }}, `. -/
def tmplBody (name : String → String) (c : wayback.Collect String) : String :=
  name c.Arc ++ ":- • " ++ c.Dst ++ ", "

/-- Executing `{{range $ := .}}…{{end}}` over the collects. -/
def Execute (name : String → String) (cols : List (wayback.Collect String)) : String :=
  String.join (cols.map (tmplBody name))

/-- Go `Relaychat.ForPublish`, as the text held by the returned `Render`.
`name` is the template function of that name from `funcMap`.  The template is a
constant that parses and `name` is total, so the two error returns are not taken. -/
def Relaychat.ForPublish (name : String → String) (i : Relaychat) : String :=
  bytes.TrimRight (Execute name i.Cols) ", "

/-- The entry of one collect without the separator: `<name(Arc)>:- • <Dst>`. -/
def entryOf (name : String → String) (c : wayback.Collect String) : String :=
  name c.Arc ++ ":- • " ++ c.Dst

/-- The entries joined by `", "`, with no trailing separator. -/
def joined (name : String → String) (cols : List (wayback.Collect String)) : String :=
  ", ".intercalate (cols.map (entryOf name))

end render

/-! ## `service/anonymity/tor.go` -/

namespace template

/-- Go `template.Collect`: one record of the response aggregate. -/
structure Collect where
  Slot : String
  Src : String
  Dst : String
  deriving DecidableEq, Repr

/-- Go `template.Collector`: the response aggregate. -/
abbrev Collector := List Collect

end template

namespace errors

/-- A Go error value carrying its message. -/
structure Error where
  msg : String
  deriving DecidableEq, Repr

/-- Modelled from the spec: package `errors` of the repository is outside the given
sources.  In the error handling design a failure is converted into data, so
`errors.New` builds an error value carrying its message; the nil error is `none`. -/
def New (msg : String) : Option Error := some ⟨msg⟩

end errors

namespace anonymity

open config

/-- A Go `map[string]string`, listed in iteration order. -/
abbrev Map := List (String × String)

/-- Go `wayback.Broker`, reduced to the four methods `tor.go` calls.  The handle is
built from the URL list, so each method is a function of it. -/
structure Broker where
  IA : List String → Map
  IS : List String → Map
  IP : List String → Map
  PH : List String → Map

/-- Which broker method was invoked. -/
inductive BrokerCall where
  | IA
  | IS
  | IP
  | PH
  deriving DecidableEq, Repr

/-- Go `transform`: append one record per entry of `arc` to the collector. -/
def transform (c : template.Collector) (slot : String) (arc : Map) : template.Collector :=
  c ++ arc.map (fun e => { Slot := slot, Src := e.1, Dst := e.2 })

/-- Where a slot goroutine of `archive` stands: at its `start`; the broker method has
been `called` and has answered `arc`; `transform` has `loaded` the aggregate
(`p := *c`); `transform` has `stored` it (`*c = p`) and `c.Dst` is set; `col` has
been read (`colLoaded`); `col` has been written and the goroutine is `done`.
The load and the store inside `transform` are separate steps, and so are the load
and the store of `col = append(col, c)`: neither is guarded by a lock.

The slice is held as a list that is loaded and stored in one piece and every
`append` yields a fresh list.  Every run over these steps is a run of the Go code
(goroutines that load the empty aggregate allocate afresh on `append`); the Go code
has further runs when the accesses overlap, since a slice header is three words and
`append` may write into a shared backing array.  Properties of the aggregate are
therefore stated for runs in which the goroutines do not overlap, and overlapping
runs serve only to exhibit an outcome the code has. -/
inductive Pc where
  | start
  | called (arc : Map)
  | loaded (arc : Map) (p : template.Collector)
  | stored (dst : Map)
  | colLoaded (dst : Map) (q : List (wayback.Collect Map))
  | done
  deriving DecidableEq, Repr

/-- The memory shared by the slot goroutines, the broker invocations so far, and
the position of every goroutine. -/
structure Mem where
  tc : template.Collector
  col : List (wayback.Collect Map)
  calls : List BrokerCall
  pcs : List Pc
  deriving DecidableEq, Repr

/-- How far a goroutine has come, from 0 (`start`) to 5 (`done`). -/
def Pc.rank : Pc → Nat
  | Pc.start => 0
  | Pc.called _ => 1
  | Pc.loaded _ _ => 2
  | Pc.stored _ => 3
  | Pc.colLoaded _ _ => 4
  | Pc.done => 5

/-- The `switch slot` of the goroutine body: the broker method of the matching case. -/
def dispatch (tbl : SlotTable) (wbrc : Broker) (urls : List String) (slot : String) :
    Option (BrokerCall × Map) :=
  if slot = tbl.SLOT_IA then some (BrokerCall.IA, wbrc.IA urls)
  else if slot = tbl.SLOT_IS then some (BrokerCall.IS, wbrc.IS urls)
  else if slot = tbl.SLOT_IP then some (BrokerCall.IP, wbrc.IP urls)
  else if slot = tbl.SLOT_PH then some (BrokerCall.PH, wbrc.PH urls)
  else none

/-- One step of the goroutine started for `slot`. -/
def stepSlot (tbl : SlotTable) (wbrc : Broker) (urls : List String) (slot : String)
    (pc : Pc) (m : Mem) : Pc × Mem :=
  match pc with
  | Pc.start =>
    match dispatch tbl wbrc urls slot with
    | some (call, arc) => (Pc.called arc, { m with calls := m.calls ++ [call] })
    | none => (Pc.stored [], m)
  | Pc.called arc => (Pc.loaded arc m.tc, m)
  | Pc.loaded arc p => (Pc.stored arc, { m with tc := transform p (tbl.SlotName slot) arc })
  | Pc.stored dst => (Pc.colLoaded dst m.col, m)
  | Pc.colLoaded dst q =>
    (Pc.done, { m with col := q ++ [{ Arc := tbl.SlotName slot, Dst := dst, Ext := tbl.SlotExtra slot }] })
  | Pc.done => (Pc.done, m)

/-- The scheduler runs goroutine `i` for one step. -/
def step (tbl : SlotTable) (wbrc : Broker) (urls : List String) (gs : List String)
    (m : Mem) (i : Nat) : Mem :=
  match gs[i]?, m.pcs[i]? with
  | some slot, some pc =>
    let r := stepSlot tbl wbrc urls slot pc m
    { r.2 with pcs := r.2.pcs.set i r.1 }
  | _, _ => m

/-- Run goroutine `i` until it is done (a goroutine body has five steps). -/
def runToEnd (tbl : SlotTable) (wbrc : Broker) (urls : List String) (gs : List String)
    (m : Mem) (i : Nat) : Mem :=
  (List.replicate 5 i).foldl (step tbl wbrc urls gs) m

/-- The `wg.Wait()`: every goroutine still running is run to its end. -/
def finish (tbl : SlotTable) (wbrc : Broker) (urls : List String) (gs : List String)
    (m : Mem) : Mem :=
  (List.range gs.length).foldl (runToEnd tbl wbrc urls gs) m

/-- The schedule in which the goroutines listed in `order` run one after the other,
each from its first to its last step with no step of another goroutine in between. -/
def oneAfterTheOther (order : List Nat) : List Nat :=
  order.flatMap (fun i => List.replicate 5 i)

/-- What `archive` returns, together with the broker methods it invoked. -/
structure Archived where
  tc : template.Collector
  col : List (wayback.Collect Map)
  calls : List BrokerCall
  deriving DecidableEq, Repr

/-- The slots for which `archive` starts a goroutine, in map iteration order. -/
def enabledSlots (opts : Options) : List String :=
  (opts.Slots.filter (fun e => e.2)).map (fun e => e.1)

/-- The memory when the goroutines have been started: the aggregate `tc` and `col`
are empty and every goroutine is at its first step. -/
def initMem (gs : List String) : Mem :=
  { tc := [], col := [], calls := [], pcs := gs.map (fun _ => Pc.start) }

/-- Go `Tor.archive`.  `MatchURL` is `utils.MatchURL`; `sched` is the order in which
the scheduler interleaves the steps of the slot goroutines before `wg.Wait()`
lets the remaining ones run to their end. -/
def archive (tbl : SlotTable) (opts : Options) (wbrc : Broker) (MatchURL : String → List String)
    (sched : List Nat) (text : String) : Archived :=
  let urls := MatchURL text
  if urls.length = 0 then
    { tc := transform [] "" [(text, "URL no found")], col := [], calls := [] }
  else
    let gs := enabledSlots opts
    let m := finish tbl wbrc urls gs (sched.foldl (step tbl wbrc urls gs) (initMem gs))
    { tc := m.tc, col := m.col, calls := m.calls }

/-- The publish channels the closure `pub` of `process` can address. -/
inductive PubAction where
  | ToChannel
  | ToIssues
  | ToMastodon
  | ToTwitter
  deriving DecidableEq, Repr

/-- The closure `pub` of `process`: the channels it publishes to, in order. -/
def pub (opts : Options) (_col : List (wayback.Collect Map)) : List PubAction :=
  (if opts.PublishToChannel then [PubAction.ToChannel] else []) ++
  (if opts.PublishToIssues then [PubAction.ToIssues] else []) ++
  (if opts.PublishToMastodon then [PubAction.ToMastodon] else []) ++
  (if opts.PublishToTwitter then [PubAction.ToTwitter] else [])

/-- An HTTP request as `process` sees it: the method, and the outcome of
`ParseForm` (`none` is a parse error, otherwise the lookup `PostFormValue`). -/
structure Request where
  Method : String
  form : Option (String → String)

/-- Go `http.MethodPost`. -/
def MethodPost : String := "POST"

/-- What `process` does that is visible from outside, in order. -/
inductive Effect where
  | Redirect (url : String) (code : Nat)
  | Archive (text : String)
  | Call (b : BrokerCall)
  | SetHeader (key value : String)
  | GoPub (col : List (wayback.Collect Map)) (actions : List PubAction)
  | Write (data : String)
  deriving DecidableEq, Repr

/-- The two encoders `process` relies on: `json.Marshal` (`none` is an error) and
`Collector.Render` (`none` is `ok = false`). -/
structure Encoders where
  Marshal : template.Collector → Option String
  Render : template.Collector → Option String

/-- Go `Tor.process`. -/
def process (tbl : SlotTable) (opts : Options) (wbrc : Broker) (MatchURL : String → List String)
    (enc : Encoders) (sched : List Nat) (r : Request) : List Effect :=
  if r.Method ≠ MethodPost then
    [Effect.Redirect "/" 405]
  else
    match r.form with
    | none => [Effect.Redirect "/" 400]
    | some PostFormValue =>
      let text := PostFormValue "text"
      if (strings.TrimSpace text).length = 0 then
        [Effect.Redirect "/" 411]
      else
        let a := archive tbl opts wbrc MatchURL sched text
        let t0 := Effect.Archive text :: a.calls.map Effect.Call
        if PostFormValue "data-type" = "json" then
          let t1 := t0 ++ [Effect.SetHeader "Content-Type" "application/json"]
          match enc.Marshal a.tc with
          | none => t1
          | some data => t1 ++ [Effect.GoPub a.col (pub opts a.col), Effect.Write data]
        else
          let t1 := t0 ++ [Effect.SetHeader "Content-Type" "text/html; charset=utf-8"]
          match enc.Render a.tc with
          | some html => t1 ++ [Effect.GoPub a.col (pub opts a.col), Effect.Write html]
          | none => t1

/-- Number of times the detached publish step was launched. -/
def pubLaunches (tr : List Effect) : Nat :=
  tr.countP (fun e => match e with
    | Effect.GoPub _ _ => true
    | _ => false)

/-- The status codes of the redirects sent. -/
def rejections (tr : List Effect) : List Nat :=
  tr.filterMap (fun e => match e with
    | Effect.Redirect _ code => some code
    | _ => none)

/-- Whether the archive dispatcher ran or a broker was invoked. -/
def dispatched (tr : List Effect) : Bool :=
  tr.any (fun e => match e with
    | Effect.Archive _ => true
    | Effect.Call _ => true
    | _ => false)

/-- Every destination of the mapping is non-empty. -/
def nonBlankMap (arc : Map) : Prop := ∀ e ∈ arc, e.2 ≠ ""

/-- Every record of the aggregate has a non-empty destination. -/
def nonBlank (c : template.Collector) : Prop := ∀ r ∈ c, r.Dst ≠ ""

/-- The records the goroutine of `slot` hands to `transform`. -/
def slotRecords (tbl : SlotTable) (wbrc : Broker) (urls : List String) (slot : String) :
    template.Collector :=
  match dispatch tbl wbrc urls slot with
  | some (_, arc) => transform [] (tbl.SlotName slot) arc
  | none => []

/-- The mapping the broker returns for `slot` (empty when no case of the switch
matches). -/
def slotMap (tbl : SlotTable) (wbrc : Broker) (urls : List String) (slot : String) : Map :=
  match dispatch tbl wbrc urls slot with
  | some (_, arc) => arc
  | none => []

/-- The (slot, source URL) pairs of the aggregate. -/
def recordKeys (c : template.Collector) : List (String × String) :=
  c.map (fun r => (r.Slot, r.Src))

/-- The (source, destination) pairs of the records carrying the slot name `name`. -/
def slotPairs (name : String) (c : template.Collector) : Map :=
  (c.filter (fun r => r.Slot = name)).map (fun r => (r.Src, r.Dst))

/-- A request is rejected with `code`: the redirect with that client-error status is
the only effect, so neither archive dispatch nor publish takes place. -/
def rejectedWith (tr : List Effect) (code : Nat) : Prop :=
  tr = [Effect.Redirect "/" code] ∧ 400 ≤ code ∧ code < 500 ∧
    dispatched tr = false ∧ pubLaunches tr = 0

/-- Go `tor.StartConf` as filled in by `Serve`. -/
structure StartConf where
  TorrcFile : String
  DebugWriter : Bool
  ExtraArgs : List String
  deriving DecidableEq, Repr

/-- The outcomes of the system calls made by `Serve`. -/
structure ServeEnv where
  lookPathOk : Bool
  torrcOpens : Bool
  startOk : StartConf → Bool
  listenOk : Bool
  serveComesBack : Bool

/-- How a call of `Serve` ends: the process exits in `logger.Fatal`, `http.Serve`
never comes back, or `Serve` returns an error value. -/
inductive ServeOutcome where
  | fatal
  | blocked
  | returned (err : Option errors.Error)
  deriving DecidableEq, Repr

/-- Go `hex.DecodeString` succeeds: an even number of hexadecimal digits. -/
def hexDecodes (s : String) : Bool :=
  s.length % 2 == 0 &&
  s.data.all (fun ch => ch.isDigit || ('a' ≤ ch && ch ≤ 'f') || ('A' ≤ ch && ch ≤ 'F'))

/-- Go `Tor.torrc`. -/
def torrc (opts : Options) (env : ServeEnv) : String :=
  if opts.TorrcFile = "" then ""
  else if !env.torrcOpens then ""
  else opts.TorrcFile

/-- Go `Tor.Serve`. -/
def Serve (opts : Options) (env : ServeEnv) : ServeOutcome :=
  if !env.lookPathOk then ServeOutcome.fatal
  else if opts.TorPrivKey ≠ "" ∧ hexDecodes opts.TorPrivKey = false then ServeOutcome.fatal
  else
    let startConf : StartConf :=
      if opts.HasDebugMode then
        { TorrcFile := torrc opts env, DebugWriter := true, ExtraArgs := [] }
      else
        { TorrcFile := torrc opts env, DebugWriter := false, ExtraArgs := ["--quiet"] }
    if !env.startOk startConf then ServeOutcome.fatal
    else if !env.listenOk then ServeOutcome.fatal
    else if !env.serveComesBack then ServeOutcome.blocked
    else ServeOutcome.returned (errors.New "done")

/-- A sample slot table. -/
def sampleTable : SlotTable where
  SLOT_IA := "ia"
  SLOT_IS := "is"
  SLOT_IP := "ip"
  SLOT_PH := "ph"
  SlotName := fun s =>
    if s = "ia" then "Internet Archive"
    else if s = "is" then "archive.today"
    else if s = "ip" then "IPFS"
    else if s = "ph" then "Telegraph"
    else "Unknown"
  SlotExtra := fun s => s

/-- A sample URL extractor: the text is one URL when it starts with `http`. -/
def sampleMatchURL (text : String) : List String :=
  if "http".data.isPrefixOf text.data then [text] else []

/-- A sample broker: every method archives every URL. -/
def sampleBroker : Broker where
  IA := fun urls => urls.map (fun u => (u, "https://web.archive.org/" ++ u))
  IS := fun urls => urls.map (fun u => (u, "https://archive.today/" ++ u))
  IP := fun urls => urls.map (fun u => (u, "https://ipfs.io/" ++ u))
  PH := fun urls => urls.map (fun u => (u, "https://telegra.ph/" ++ u))

/-- A sample broker whose IA method leaves the destination blank. -/
def blankBroker : Broker :=
  { sampleBroker with IA := fun urls => urls.map (fun u => (u, "")) }

/-- A sample broker whose IS method returns an empty mapping. -/
def omittingBroker : Broker :=
  { sampleBroker with IS := fun _ => [] }

/-- Sample options with the single slot IA enabled. -/
def onlyIA : Options :=
  { publish.sampleOpts with Slots := [("ia", true), ("is", false), ("ip", false), ("ph", false)] }

/-- Sample encoders that always succeed. -/
def okEncoders : Encoders where
  Marshal := fun _ => some "json"
  Render := fun _ => some "html"

/-- Sample encoders whose template rendering fails. -/
def failingRender : Encoders where
  Marshal := fun _ => some "json"
  Render := fun _ => none

/-- A sample request posting one URL in presentation mode. -/
def sampleRequest : Request where
  Method := "POST"
  form := some (fun k => if k = "text" then "https://example.com/" else "")

/-- A GET request. -/
def getRequest : Request where
  Method := "GET"
  form := some (fun _ => "https://example.com/")

/-- A POST request whose form cannot be parsed. -/
def unparsableRequest : Request where
  Method := "POST"
  form := none

/-- A POST request whose text consists of white space. -/
def blankRequest : Request where
  Method := "POST"
  form := some (fun k => if k = "text" then " \t\n" else "json")

/-- A POST request whose text contains no URL. -/
def noUrlRequest : Request where
  Method := "POST"
  form := some (fun k => if k = "text" then "no url here" else "json")

/-- A sample environment in which every system call of `Serve` succeeds. -/
def okServeEnv : ServeEnv where
  lookPathOk := true
  torrcOpens := true
  startOk := fun _ => true
  listenOk := true
  serveComesBack := true

end anonymity

/-! ## Theorems: `publish/github.go` -/

namespace publish

open metrics config

theorem metricsOf_append (a b : List Event) : metricsOf (a ++ b) = metricsOf a ++ metricsOf b := by
  induction a with
  | nil => rfl
  | cons e es ih => cases e <;> simp [metricsOf, ih]

theorem apiCallsOf_append (a b : List Event) :
    apiCallsOf (a ++ b) = apiCallsOf a ++ apiCallsOf b := by
  induction a with
  | nil => rfl
  | cons e es ih => cases e <;> simp [apiCallsOf, ih]

/-- The calls made by `toIssues` contain no metric increment. -/
theorem toIssues_metrics {Bundle Col : Type} (opts : Options) (env : Env Bundle Col)
    (gh : gitHub) (bnd : Bundle) (text : String) :
    metricsOf (toIssues opts env gh bnd text).2 = [] := by
  unfold toIssues
  cases gh.client with
  | none => rfl
  | some c =>
    by_cases ht : text = ""
    · simp [ht, metricsOf]
    · by_cases hd : opts.HasDebugMode = true <;>
        by_cases hc : env.createOk opts.GitHubOwner opts.GitHubRepo
            (if strings.TrimSpace (env.Title bnd) = "" then "Published at " ++ env.now
              else strings.TrimSpace (env.Title bnd)) text = true <;>
        simp [ht, hd, hc, metricsOf]

/-- C1 (as stated) fails on the empty record list: `Publish` returns right after the
request metric, so one request is counted against zero terminal metrics. -/
theorem Publish_empty_no_terminal :
    metricsOf (Publish sampleOpts sampleEnv (NewGitHub sampleOpts none) ([] : List String))
        = [(Channel.PublishGithub, Status.StatusRequest)] ∧
      countStatus Status.StatusRequest
          (Publish sampleOpts sampleEnv (NewGitHub sampleOpts none) ([] : List String)) ≠
        countStatus Status.StatusSuccess
          (Publish sampleOpts sampleEnv (NewGitHub sampleOpts none) ([] : List String)) +
        countStatus Status.StatusFailure
          (Publish sampleOpts sampleEnv (NewGitHub sampleOpts none) ([] : List String)) := by
  decide

/-- C1 (amended): for every non-empty record list and every outcome of the delivery,
`Publish` emits exactly the request metric followed by exactly one terminal metric
(success or failure), so the request count equals the success-plus-failure count;
for the empty record list it emits the request metric alone. -/
theorem Publish_metrics {Bundle Col : Type} (opts : Options) (env : Env Bundle Col)
    (gh : gitHub) :
    (∀ cols : List Col, cols ≠ [] →
      (∃ terminal, (terminal = Status.StatusSuccess ∨ terminal = Status.StatusFailure) ∧
        metricsOf (Publish opts env gh cols) =
          [(Channel.PublishGithub, Status.StatusRequest), (Channel.PublishGithub, terminal)]) ∧
      countStatus Status.StatusRequest (Publish opts env gh cols) =
        countStatus Status.StatusSuccess (Publish opts env gh cols) +
        countStatus Status.StatusFailure (Publish opts env gh cols)) ∧
    metricsOf (Publish opts env gh ([] : List Col)) =
      [(Channel.PublishGithub, Status.StatusRequest)] := by
  refine ⟨?_, by simp [Publish, metricsOf]⟩
  intro cols hne
  have hlen : cols.length ≠ 0 := by
    intro h
    exact hne (List.length_eq_zero.mp h)
  have hm := toIssues_metrics opts env gh (env.bundle cols) (env.renderGitHub cols (env.bundle cols))
  by_cases hr : (toIssues opts env gh (env.bundle cols)
      (env.renderGitHub cols (env.bundle cols))).1 = true
  · have hP : metricsOf (Publish opts env gh cols) =
        [(Channel.PublishGithub, Status.StatusRequest),
         (Channel.PublishGithub, Status.StatusSuccess)] := by
      simp [Publish, hlen, hr, metricsOf_append, hm, metricsOf]
    refine ⟨⟨Status.StatusSuccess, Or.inl rfl, hP⟩, ?_⟩
    simp only [countStatus, hP]
    decide
  · have hP : metricsOf (Publish opts env gh cols) =
        [(Channel.PublishGithub, Status.StatusRequest),
         (Channel.PublishGithub, Status.StatusFailure)] := by
      simp [Publish, hlen, hr, metricsOf_append, hm, metricsOf]
    refine ⟨⟨Status.StatusFailure, Or.inr rfl, hP⟩, ?_⟩
    simp only [countStatus, hP]
    decide

/-- Witness for C1 (amended): one record, credentials present, delivery succeeds. -/
theorem Publish_metrics_witness :
    (∃ terminal, (terminal = Status.StatusSuccess ∨ terminal = Status.StatusFailure) ∧
        metricsOf (Publish sampleOpts sampleEnv (NewGitHub sampleOpts none) ["r"]) =
          [(Channel.PublishGithub, Status.StatusRequest), (Channel.PublishGithub, terminal)]) ∧
      countStatus Status.StatusRequest
          (Publish sampleOpts sampleEnv (NewGitHub sampleOpts none) ["r"]) =
        countStatus Status.StatusSuccess
          (Publish sampleOpts sampleEnv (NewGitHub sampleOpts none) ["r"]) +
        countStatus Status.StatusFailure
          (Publish sampleOpts sampleEnv (NewGitHub sampleOpts none) ["r"]) :=
  (Publish_metrics sampleOpts sampleEnv (NewGitHub sampleOpts none)).1 ["r"] (by decide)

/-- C6: with an empty token or an empty owner, `NewGitHub` (for any `httpClient`)
returns a publisher without API client; on it `toIssues` returns false without any
API call, and `Publish` on a non-empty record list makes no GitHub API call and
records the request metric followed by the failure metric, never success. -/
theorem Publish_unconfigured {Bundle Col : Type} (opts opts' : Options)
    (httpClient : Option HttpClient) (env : Env Bundle Col) (cols : List Col)
    (hcred : opts.GitHubToken = "" ∨ opts.GitHubOwner = "") (hne : cols ≠ []) :
    (NewGitHub opts httpClient).client = none ∧
    (∀ bnd text, toIssues opts' env (NewGitHub opts httpClient) bnd text = (false, [])) ∧
    apiCallsOf (Publish opts' env (NewGitHub opts httpClient) cols) = [] ∧
    metricsOf (Publish opts' env (NewGitHub opts httpClient) cols) =
      [(Channel.PublishGithub, Status.StatusRequest),
       (Channel.PublishGithub, Status.StatusFailure)] ∧
    countStatus Status.StatusSuccess (Publish opts' env (NewGitHub opts httpClient) cols) = 0 := by
  have hgh : NewGitHub opts httpClient = { client := none } := by
    unfold NewGitHub
    rw [if_pos hcred]
  have hto : ∀ bnd text, toIssues opts' env { client := none } bnd text = (false, []) := by
    intro bnd text
    rfl
  have hlen : cols.length ≠ 0 := by
    intro h
    exact hne (List.length_eq_zero.mp h)
  have hP : Publish opts' env { client := none } cols =
      [Event.IncrementPublish Channel.PublishGithub Status.StatusRequest,
       Event.IncrementPublish Channel.PublishGithub Status.StatusFailure] := by
    simp [Publish, hlen, hto]
  rw [hgh]
  refine ⟨rfl, hto, ?_, ?_, ?_⟩
  · rw [hP]; rfl
  · rw [hP]; rfl
  · rw [countStatus, hP]; decide

/-- Witness for C6: the token is empty, debug mode is on, one record is published. -/
theorem Publish_unconfigured_witness :
    (NewGitHub noTokenOpts (some (HttpClient.given 0))).client = none ∧
    (∀ bnd text, toIssues noTokenOpts sampleEnv
        (NewGitHub noTokenOpts (some (HttpClient.given 0))) bnd text = (false, [])) ∧
    apiCallsOf (Publish noTokenOpts sampleEnv
        (NewGitHub noTokenOpts (some (HttpClient.given 0))) ["r"]) = [] ∧
    metricsOf (Publish noTokenOpts sampleEnv
        (NewGitHub noTokenOpts (some (HttpClient.given 0))) ["r"]) =
      [(Channel.PublishGithub, Status.StatusRequest),
       (Channel.PublishGithub, Status.StatusFailure)] ∧
    countStatus Status.StatusSuccess (Publish noTokenOpts sampleEnv
        (NewGitHub noTokenOpts (some (HttpClient.given 0))) ["r"]) = 0 :=
  Publish_unconfigured noTokenOpts noTokenOpts (some (HttpClient.given 0)) sampleEnv ["r"]
    (Or.inl rfl) (by decide)

end publish

/-! ## Theorems: `template/render/relaychat.go` -/

namespace render

theorem join_cons (a : String) (l : List String) : String.join (a :: l) = a ++ String.join l := by
  apply String.ext
  simp

theorem intercalate_go_sep (s : String) (l : List String) (acc : String) :
    String.intercalate.go acc s l ++ s = acc ++ s ++ String.join (l.map (fun a => a ++ s)) := by
  induction l generalizing acc with
  | nil =>
    apply String.ext
    simp [String.intercalate.go]
  | cons a l ih =>
    simp only [String.intercalate.go, List.map_cons, join_cons]
    rw [ih]
    apply String.ext
    simp

theorem tmplBody_eq (name : String → String) (c : wayback.Collect String) :
    tmplBody name c = entryOf name c ++ ", " := rfl

/-- On a non-empty list the template output is the joined entries plus one separator. -/
theorem Execute_eq_joined (name : String → String) (c : wayback.Collect String)
    (cols : List (wayback.Collect String)) :
    Execute name (c :: cols) = joined name (c :: cols) ++ ", " := by
  unfold Execute joined
  simp only [List.map_cons, String.intercalate, join_cons]
  rw [intercalate_go_sep, tmplBody_eq]
  apply String.ext
  simp [Function.comp_def, tmplBody_eq]

theorem Execute_append (name : String → String) (xs ys : List (wayback.Collect String)) :
    Execute name (xs ++ ys) = Execute name xs ++ Execute name ys := by
  apply String.ext
  simp [Execute]

/-- What `rdropWhile` removes satisfies the predicate, and what it leaves does not
end in a character satisfying it. -/
theorem rdropWhile_split {α : Type} (p : α → Bool) (l : List α) :
    (∃ cut, l = l.rdropWhile p ++ cut ∧ ∀ x ∈ cut, p x = true) ∧
    ∀ x, (l.rdropWhile p).getLast? = some x → p x = false := by
  induction l using List.reverseRecOn with
  | nil => simp
  | append_singleton l a ih =>
    by_cases ha : p a = true
    · rw [List.rdropWhile_concat_pos _ _ _ ha]
      obtain ⟨⟨cut, hcut, hall⟩, hlast⟩ := ih
      refine ⟨⟨cut ++ [a], ?_, ?_⟩, hlast⟩
      · rw [← List.append_assoc, ← hcut]
      · intro x hx
        rcases List.mem_append.mp hx with h | h
        · exact hall x h
        · simpa [List.mem_singleton.mp h] using ha
    · rw [List.rdropWhile_concat_neg _ _ _ ha]
      refine ⟨⟨[], by simp, by simp⟩, ?_⟩
      intro x hx
      rw [List.getLast?_concat] at hx
      cases hx
      simpa using ha

/-- C10: `Relaychat.ForPublish` is the concatenation of `<name(Arc)>:- • <Dst>, ` over
the collects with every trailing `,` and space stripped: what is cut off consists of
those two characters only and the result does not end in one of them; it is empty on
the empty list; and when the last collect's `Dst` ends in a character other than `,`
and space, it equals the entries joined by `", "` with no trailing separator. -/
theorem ForPublish_spec (name : String → String) :
    Relaychat.ForPublish name ⟨[]⟩ = "" ∧
    (∀ cols, ∃ cut : List Char,
      (String.join (cols.map fun c => name c.Arc ++ ":- • " ++ c.Dst ++ ", ")).data =
        (Relaychat.ForPublish name ⟨cols⟩).data ++ cut ∧
      (∀ ch ∈ cut, ch = ',' ∨ ch = ' ') ∧
      ∀ ch, (Relaychat.ForPublish name ⟨cols⟩).data.getLast? = some ch → ch ≠ ',' ∧ ch ≠ ' ') ∧
    (∀ cols c ch, cols.getLast? = some c → c.Dst.data.getLast? = some ch →
      ch ≠ ',' → ch ≠ ' ' → Relaychat.ForPublish name ⟨cols⟩ = joined name cols) := by
  refine ⟨rfl, ?_, ?_⟩
  · intro cols
    obtain ⟨⟨cut, hcut, hall⟩, hlast⟩ :=
      rdropWhile_split (fun ch => decide (ch ∈ ", ".data)) (Execute name cols).data
    refine ⟨cut, hcut, ?_, ?_⟩
    · intro ch hch
      have := hall ch hch
      simpa using this
    · intro ch hch
      have := hlast ch hch
      simpa using this
  · intro cols c ch hc hch h1 h2
    obtain ⟨ys, rfl⟩ := List.getLast?_eq_some_iff.mp hc
    obtain ⟨d, hd⟩ := List.getLast?_eq_some_iff.mp hch
    have hE : (Execute name (ys ++ [c])).data = (joined name (ys ++ [c])).data ++ [',', ' '] := by
      cases ys with
      | nil => rw [List.nil_append, Execute_eq_joined]; rfl
      | cons y ys => rw [List.cons_append, Execute_eq_joined]; rfl
    have hE2 : (Execute name (ys ++ [c])).data =
        ((Execute name ys).data ++ (name c.Arc).data ++ ":- • ".data ++ d ++ [ch]) ++ [',', ' '] := by
      rw [Execute_append]
      simp [Execute, tmplBody, hd]
    have hJ : (joined name (ys ++ [c])).data =
        ((Execute name ys).data ++ (name c.Arc).data ++ ":- • ".data ++ d) ++ [ch] := by
      have := hE.symm.trans hE2
      exact List.append_cancel_right this
    have hp : ¬ ((fun ch => decide (ch ∈ ", ".data)) ch = true) := by
      simp [h1, h2]
    apply String.ext
    show (Execute name (ys ++ [c])).data.rdropWhile (fun ch => decide (ch ∈ ", ".data)) = _
    rw [hE]
    have e1 : (joined name (ys ++ [c])).data ++ [',', ' '] =
        ((joined name (ys ++ [c])).data ++ [',']) ++ [' '] := by simp
    rw [e1, List.rdropWhile_concat_pos _ _ _ (by decide),
      List.rdropWhile_concat_pos _ _ _ (by decide), hJ]
    exact List.rdropWhile_concat_neg _ _ _ hp

/-- Witness for C10: two collects, the last destination ends in `2`. -/
theorem ForPublish_spec_witness :
    Relaychat.ForPublish id ⟨[⟨"IA", "d1", ""⟩, ⟨"IS", "d2", ""⟩]⟩ =
      joined id [⟨"IA", "d1", ""⟩, ⟨"IS", "d2", ""⟩] :=
  (ForPublish_spec id).2.2 [⟨"IA", "d1", ""⟩, ⟨"IS", "d2", ""⟩] ⟨"IS", "d2", ""⟩ '2'
    (by decide) (by decide) (by decide) (by decide)

end render

/-! ## Theorems: `service/anonymity/tor.go`, request handling -/

namespace anonymity

open config

theorem pubLaunches_append (a b : List Effect) :
    pubLaunches (a ++ b) = pubLaunches a + pubLaunches b := by
  simp [pubLaunches]

theorem rejections_append (a b : List Effect) :
    rejections (a ++ b) = rejections a ++ rejections b := by
  simp [rejections]

/-- The dispatch part of a trace launches no publish step and rejects nothing. -/
theorem dispatch_trace (text : String) (calls : List BrokerCall) :
    pubLaunches (Effect.Archive text :: calls.map Effect.Call) = 0 ∧
    rejections (Effect.Archive text :: calls.map Effect.Call) = [] := by
  induction calls with
  | nil => exact ⟨rfl, rfl⟩
  | cons c cs ih =>
    obtain ⟨h1, h2⟩ := ih
    constructor
    · simp only [pubLaunches, List.map_cons, List.countP_cons] at h1 ⊢
      exact h1
    · simp only [rejections, List.map_cons, List.filterMap_cons] at h2 ⊢
      exact h2

/-- C2: when URL extraction yields no URL, `archive` returns, under every schedule and
for every set of enabled slots, an aggregate of exactly one record, whose
destination is "URL no found", and invokes no broker method. -/
theorem archive_no_url (tbl : SlotTable) (opts : Options) (wbrc : Broker)
    (MatchURL : String → List String) (sched : List Nat) (text : String)
    (h : MatchURL text = []) :
    (archive tbl opts wbrc MatchURL sched text).tc =
      [{ Slot := "", Src := text, Dst := "URL no found" }] ∧
    (archive tbl opts wbrc MatchURL sched text).tc.length = 1 ∧
    (∀ r ∈ (archive tbl opts wbrc MatchURL sched text).tc, r.Dst = "URL no found") ∧
    (archive tbl opts wbrc MatchURL sched text).calls = [] := by
  have ha : archive tbl opts wbrc MatchURL sched text =
      { tc := [{ Slot := "", Src := text, Dst := "URL no found" }], col := [], calls := [] } := by
    simp [archive, h, transform]
  rw [ha]
  simp

/-- Witness for C2: the text "no url here" with the slots IA and IS enabled. -/
theorem archive_no_url_witness :
    (archive sampleTable publish.sampleOpts sampleBroker sampleMatchURL [0, 1, 0] "no url here").tc =
      [{ Slot := "", Src := "no url here", Dst := "URL no found" }] ∧
    (archive sampleTable publish.sampleOpts sampleBroker sampleMatchURL [0, 1, 0]
      "no url here").tc.length = 1 ∧
    (∀ r ∈ (archive sampleTable publish.sampleOpts sampleBroker sampleMatchURL [0, 1, 0]
      "no url here").tc, r.Dst = "URL no found") ∧
    (archive sampleTable publish.sampleOpts sampleBroker sampleMatchURL [0, 1, 0]
      "no url here").calls = [] :=
  archive_no_url sampleTable publish.sampleOpts sampleBroker sampleMatchURL [0, 1, 0]
    "no url here" (by decide)

/-- C4 (as stated) fails when template rendering fails: the request passes validation
and the publish step is launched zero times. -/
theorem process_render_failure_no_pub :
    sampleRequest.Method = MethodPost ∧
    (∃ f, sampleRequest.form = some f ∧ (strings.TrimSpace (f "text")).length ≠ 0 ∧
      f "data-type" ≠ "json") ∧
    pubLaunches (process sampleTable publish.sampleOpts sampleBroker sampleMatchURL
      failingRender [] sampleRequest) = 0 := by
  refine ⟨rfl, ⟨_, rfl, by decide, by decide⟩, by decide⟩

/-- C4 (amended): for a request that passes validation, the publish step is launched
exactly once when the response was produced (JSON encoding succeeded for data-type
"json", template rendering succeeded for any other data-type) and not at all when
encoding or rendering failed; it is never launched twice. -/
theorem process_pub_launches (tbl : SlotTable) (opts : Options) (wbrc : Broker)
    (MatchURL : String → List String) (enc : Encoders) (sched : List Nat) (r : Request)
    (f : String → String) (hm : r.Method = MethodPost) (hf : r.form = some f)
    (ht : (strings.TrimSpace (f "text")).length ≠ 0) :
    pubLaunches (process tbl opts wbrc MatchURL enc sched r) =
      (if f "data-type" = "json" then
        (if (enc.Marshal (archive tbl opts wbrc MatchURL sched (f "text")).tc).isSome then 1 else 0)
      else
        (if (enc.Render (archive tbl opts wbrc MatchURL sched (f "text")).tc).isSome then 1 else 0)) ∧
    pubLaunches (process tbl opts wbrc MatchURL enc sched r) ≤ 1 := by
  have h0 := (dispatch_trace (f "text") (archive tbl opts wbrc MatchURL sched (f "text")).calls).1
  have key : pubLaunches (process tbl opts wbrc MatchURL enc sched r) =
      (if f "data-type" = "json" then
        (if (enc.Marshal (archive tbl opts wbrc MatchURL sched (f "text")).tc).isSome then 1 else 0)
      else
        (if (enc.Render (archive tbl opts wbrc MatchURL sched (f "text")).tc).isSome then 1 else 0)) := by
    unfold process
    simp only [hm, hf, ne_eq, not_true_eq_false, if_false, if_neg ht]
    by_cases hj : f "data-type" = "json"
    · simp only [hj, if_true]
      cases hM : enc.Marshal (archive tbl opts wbrc MatchURL sched (f "text")).tc with
      | none => simp [pubLaunches_append, h0, pubLaunches]
      | some d => simp [pubLaunches_append, h0, pubLaunches]
    · simp only [hj, if_false]
      cases hR : enc.Render (archive tbl opts wbrc MatchURL sched (f "text")).tc with
      | none => simp [pubLaunches_append, h0, pubLaunches]
      | some d => simp [pubLaunches_append, h0, pubLaunches]
  refine ⟨key, ?_⟩
  rw [key]
  split <;> split <;> simp

/-- Witness for C4 (amended): the sample request with encoders that succeed. -/
theorem process_pub_launches_witness :
    pubLaunches (process sampleTable publish.sampleOpts sampleBroker sampleMatchURL
      okEncoders [] sampleRequest) = 1 :=
  (process_pub_launches sampleTable publish.sampleOpts sampleBroker sampleMatchURL okEncoders []
    sampleRequest (fun k => if k = "text" then "https://example.com/" else "") rfl rfl
    (by decide)).1.trans (by decide)

/-- C5: `process` rejects a request whose method is not POST with 405, one whose form
cannot be parsed with 400 and one whose text is blank after trimming with 411, each
time without archive dispatch or publish; a POST with parsable form and non-blank
text is never rejected and reaches the archive dispatcher, also when the text
contains no URL. -/
theorem process_validation (tbl : SlotTable) (opts : Options) (wbrc : Broker)
    (MatchURL : String → List String) (enc : Encoders) (sched : List Nat) (r : Request) :
    (r.Method ≠ MethodPost →
      rejectedWith (process tbl opts wbrc MatchURL enc sched r) 405) ∧
    (r.Method = MethodPost → r.form = none →
      rejectedWith (process tbl opts wbrc MatchURL enc sched r) 400) ∧
    (∀ f, r.Method = MethodPost → r.form = some f →
      (strings.TrimSpace (f "text")).length = 0 →
      rejectedWith (process tbl opts wbrc MatchURL enc sched r) 411) ∧
    (∀ f, r.Method = MethodPost → r.form = some f →
      (strings.TrimSpace (f "text")).length ≠ 0 →
      rejections (process tbl opts wbrc MatchURL enc sched r) = [] ∧
      dispatched (process tbl opts wbrc MatchURL enc sched r) = true) := by
  refine ⟨?_, ?_, ?_, ?_⟩
  · intro hm
    have : process tbl opts wbrc MatchURL enc sched r = [Effect.Redirect "/" 405] := by
      simp [process, hm]
    rw [this]
    exact ⟨rfl, by decide, by decide, rfl, rfl⟩
  · intro hm hf
    have : process tbl opts wbrc MatchURL enc sched r = [Effect.Redirect "/" 400] := by
      simp [process, hm, hf]
    rw [this]
    exact ⟨rfl, by decide, by decide, rfl, rfl⟩
  · intro f hm hf ht
    have : process tbl opts wbrc MatchURL enc sched r = [Effect.Redirect "/" 411] := by
      simp [process, hm, hf, ht]
    rw [this]
    exact ⟨rfl, by decide, by decide, rfl, rfl⟩
  · intro f hm hf ht
    have h0 := (dispatch_trace (f "text") (archive tbl opts wbrc MatchURL sched (f "text")).calls).2
    unfold process
    simp only [hm, hf, ne_eq, not_true_eq_false, if_false, if_neg ht]
    by_cases hj : f "data-type" = "json"
    · simp only [hj, if_true]
      cases hM : enc.Marshal (archive tbl opts wbrc MatchURL sched (f "text")).tc with
      | none => simp [rejections_append, h0, rejections, dispatched]
      | some d => simp [rejections_append, h0, rejections, dispatched]
    · simp only [hj, if_false]
      cases hR : enc.Render (archive tbl opts wbrc MatchURL sched (f "text")).tc with
      | none => simp [rejections_append, h0, rejections, dispatched]
      | some d => simp [rejections_append, h0, rejections, dispatched]

/-- Witness for C5: one request for each rejection and one accepted request whose
text contains no URL. -/
theorem process_validation_witness :
    rejectedWith (process sampleTable publish.sampleOpts sampleBroker sampleMatchURL
      okEncoders [] getRequest) 405 ∧
    rejectedWith (process sampleTable publish.sampleOpts sampleBroker sampleMatchURL
      okEncoders [] unparsableRequest) 400 ∧
    rejectedWith (process sampleTable publish.sampleOpts sampleBroker sampleMatchURL
      okEncoders [] blankRequest) 411 ∧
    (rejections (process sampleTable publish.sampleOpts sampleBroker sampleMatchURL
      okEncoders [] noUrlRequest) = [] ∧
     dispatched (process sampleTable publish.sampleOpts sampleBroker sampleMatchURL
      okEncoders [] noUrlRequest) = true) :=
  ⟨(process_validation sampleTable publish.sampleOpts sampleBroker sampleMatchURL okEncoders []
      getRequest).1 (by decide),
   (process_validation sampleTable publish.sampleOpts sampleBroker sampleMatchURL okEncoders []
      unparsableRequest).2.1 rfl rfl,
   (process_validation sampleTable publish.sampleOpts sampleBroker sampleMatchURL okEncoders []
      blankRequest).2.2.1 _ rfl rfl (by decide),
   (process_validation sampleTable publish.sampleOpts sampleBroker sampleMatchURL okEncoders []
      noUrlRequest).2.2.2 _ rfl rfl (by decide)⟩

/-- C8: `Serve` never returns the nil error.  When the tor binary is found, tor
starts, the onion listener is created and `http.Serve` comes back, it returns the
error `errors.New("done")`, although its documentation announces a nil error. -/
theorem Serve_returns_done :
    Serve publish.sampleOpts okServeEnv = ServeOutcome.returned (some { msg := "done" }) ∧
    (∀ opts env, Serve opts env ≠ ServeOutcome.returned none) ∧
    (∀ opts env err, Serve opts env = ServeOutcome.returned err →
      err = some { msg := "done" }) := by
  have h3 : ∀ opts env, Serve opts env = ServeOutcome.fatal ∨
      Serve opts env = ServeOutcome.blocked ∨
      Serve opts env = ServeOutcome.returned (some { msg := "done" }) := by
    intro opts env
    unfold Serve
    simp only [errors.New]
    split_ifs <;> simp
  have h : ∀ opts env err, Serve opts env = ServeOutcome.returned err →
      err = some { msg := "done" } := by
    intro opts env err he
    rcases h3 opts env with h' | h' | h' <;> rw [h'] at he
    · cases he
    · cases he
    · cases he
      rfl
  refine ⟨by decide, ?_, h⟩
  intro opts env he
  have := h opts env none he
  simp at this

end anonymity

/-! ## Theorems: the archive dispatcher when the goroutines run one after the other -/

namespace anonymity

open config

/-- Run from its first step to its end without interruption, the goroutine of `slot`
appends its records to the aggregate and is done. -/
theorem runToEnd_start (tbl : SlotTable) (wbrc : Broker) (urls : List String)
    (gs : List String) (m : Mem) (i : Nat) (slot : String)
    (hg : gs[i]? = some slot) (hp : m.pcs[i]? = some Pc.start) :
    (runToEnd tbl wbrc urls gs m i).tc = m.tc ++ slotRecords tbl wbrc urls slot ∧
    (runToEnd tbl wbrc urls gs m i).pcs = m.pcs.set i Pc.done := by
  have hi : i < m.pcs.length := by
    rcases Nat.lt_or_ge i m.pcs.length with h | h
    · exact h
    · rw [List.getElem?_eq_none h] at hp
      cases hp
  cases hd : dispatch tbl wbrc urls slot with
  | none =>
    simp [runToEnd, List.replicate, step, stepSlot, slotRecords, hg, hp, hd, hi]
  | some ca =>
    obtain ⟨call, arc⟩ := ca
    simp [runToEnd, List.replicate, step, stepSlot, slotRecords, hg, hp, hd, hi, transform]

/-- After the first `k` goroutines have run one after the other, the aggregate holds
their records in order and the remaining goroutines have not started. -/
theorem foldl_runToEnd_range (tbl : SlotTable) (wbrc : Broker) (urls : List String)
    (gs : List String) (k : Nat) (hk : k ≤ gs.length) :
    ((List.range k).foldl (runToEnd tbl wbrc urls gs) (initMem gs)).tc =
      ((gs.take k).map (slotRecords tbl wbrc urls)).flatten ∧
    ∀ j, k ≤ j → j < gs.length →
      ((List.range k).foldl (runToEnd tbl wbrc urls gs) (initMem gs)).pcs[j]? = some Pc.start := by
  induction k with
  | zero =>
    refine ⟨rfl, ?_⟩
    intro j _ hj
    simp [initMem, hj]
  | succ k ih =>
    obtain ⟨htc, hpcs⟩ := ih (Nat.le_of_succ_le hk)
    have hklt : k < gs.length := hk
    have hg : gs[k]? = some gs[k] := List.getElem?_eq_getElem hklt
    obtain ⟨h1, h2⟩ := runToEnd_start tbl wbrc urls gs
      ((List.range k).foldl (runToEnd tbl wbrc urls gs) (initMem gs)) k gs[k] hg
      (hpcs k (Nat.le_refl k) hklt)
    rw [List.range_succ, List.foldl_append]
    simp only [List.foldl_cons, List.foldl_nil]
    constructor
    · have hts : gs.take (k + 1) = gs.take k ++ [gs[k]] := by
        rw [List.take_succ, hg]
        rfl
      rw [h1, htc, hts, List.map_append, List.flatten_append]
      simp
    · intro j hj hjn
      rw [h2, List.getElem?_set_ne (by omega)]
      exact hpcs j (by omega) hjn

/-- When the slot goroutines run one after the other (empty schedule), the aggregate
returned by `archive` is the concatenation of the records of the enabled slots. -/
theorem archive_sequential (tbl : SlotTable) (opts : Options) (wbrc : Broker)
    (MatchURL : String → List String) (text : String) (hu : MatchURL text ≠ []) :
    (archive tbl opts wbrc MatchURL [] text).tc =
      ((enabledSlots opts).map (slotRecords tbl wbrc (MatchURL text))).flatten := by
  have hlen : (MatchURL text).length ≠ 0 := by
    intro h
    exact hu (List.length_eq_zero.mp h)
  unfold archive
  simp only [hlen, if_false, List.foldl_nil, finish]
  rw [(foldl_runToEnd_range tbl wbrc (MatchURL text) (enabledSlots opts)
    (enabledSlots opts).length (Nat.le_refl _)).1, List.take_length]

theorem slotRecords_eq (tbl : SlotTable) (wbrc : Broker) (urls : List String) (slot : String) :
    slotRecords tbl wbrc urls slot =
      (slotMap tbl wbrc urls slot).map
        (fun e => { Slot := tbl.SlotName slot, Src := e.1, Dst := e.2 }) := by
  unfold slotRecords slotMap
  cases dispatch tbl wbrc urls slot with
  | none => rfl
  | some ca => simp [transform]

theorem flatten_length_const {α β : Type} (f : α → List β) (n : Nat) (gs : List α)
    (h : ∀ s ∈ gs, (f s).length = n) : ((gs.map f).flatten).length = gs.length * n := by
  induction gs with
  | nil => simp
  | cons s gs ih =>
    have h1 := h s (List.mem_cons_self s gs)
    have h2 := ih (fun s' hs' => h s' (List.mem_cons_of_mem s hs'))
    simp only [List.map_cons, List.flatten_cons, List.length_append, List.length_cons, h1, h2]
    ring

/-- Without interleaving the claim of C3 on the number of records holds: when every
enabled slot's broker returns a mapping whose keys are the URL set `U`, the aggregate
has `|S| * |U|` records. -/
theorem archive_sequential_count (tbl : SlotTable) (opts : Options) (wbrc : Broker)
    (MatchURL : String → List String) (text : String) (U : List String)
    (hu : MatchURL text ≠ [])
    (hresp : ∀ s ∈ enabledSlots opts,
      ((slotMap tbl wbrc (MatchURL text) s).map Prod.fst).Perm U) :
    (archive tbl opts wbrc MatchURL [] text).tc.length = (enabledSlots opts).length * U.length := by
  rw [archive_sequential tbl opts wbrc MatchURL text hu]
  apply flatten_length_const
  intro s hs
  rw [slotRecords_eq, List.length_map, ← (hresp s hs).length_eq, List.length_map]

theorem recordKeys_slotRecords (tbl : SlotTable) (wbrc : Broker) (urls : List String)
    (slot : String) :
    recordKeys (slotRecords tbl wbrc urls slot) =
      ((slotMap tbl wbrc urls slot).map Prod.fst).map (fun u => (tbl.SlotName slot, u)) := by
  rw [slotRecords_eq]
  simp [recordKeys, Function.comp_def]

theorem recordKeys_flatten_nodup (tbl : SlotTable) (wbrc : Broker) (urls : List String)
    (gs : List String) (hgs : gs.Nodup)
    (hinj : ∀ s ∈ gs, ∀ s' ∈ gs, tbl.SlotName s = tbl.SlotName s' → s = s')
    (hkeys : ∀ s ∈ gs, ((slotMap tbl wbrc urls s).map Prod.fst).Nodup) :
    (recordKeys ((gs.map (slotRecords tbl wbrc urls)).flatten)).Nodup ∧
    ∀ x ∈ recordKeys ((gs.map (slotRecords tbl wbrc urls)).flatten),
      ∃ s ∈ gs, x.1 = tbl.SlotName s := by
  induction gs with
  | nil => simp [recordKeys]
  | cons s gs ih =>
    obtain ⟨hs, hgs'⟩ := List.nodup_cons.mp hgs
    obtain ⟨ih1, ih2⟩ := ih hgs'
      (fun a ha b hb => hinj a (List.mem_cons_of_mem s ha) b (List.mem_cons_of_mem s hb))
      (fun a ha => hkeys a (List.mem_cons_of_mem s ha))
    have happ : recordKeys (((s :: gs).map (slotRecords tbl wbrc urls)).flatten) =
        recordKeys (slotRecords tbl wbrc urls s) ++
          recordKeys ((gs.map (slotRecords tbl wbrc urls)).flatten) := by
      simp [recordKeys]
    have hfirst : ∀ x ∈ recordKeys (slotRecords tbl wbrc urls s), x.1 = tbl.SlotName s := by
      intro x hx
      rw [recordKeys_slotRecords] at hx
      obtain ⟨u, _, rfl⟩ := List.mem_map.mp hx
      rfl
    rw [happ]
    constructor
    · refine List.Nodup.append ?_ ih1 ?_
      · rw [recordKeys_slotRecords]
        refine List.Nodup.map ?_ (hkeys s (List.mem_cons_self s gs))
        intro a b hab
        exact (Prod.mk.injEq _ _ _ _ ▸ hab).2
      · intro x hx1 hx2
        obtain ⟨s', hs', hx'⟩ := ih2 x hx2
        have hname : tbl.SlotName s = tbl.SlotName s' := (hfirst x hx1).symm.trans hx'
        have := hinj s (List.mem_cons_self s gs) s' (List.mem_cons_of_mem s hs') hname
        exact hs (this ▸ hs')
    · intro x hx
      rcases List.mem_append.mp hx with h | h
      · exact ⟨s, List.mem_cons_self s gs, hfirst x h⟩
      · obtain ⟨s', hs', hx'⟩ := ih2 x h
        exact ⟨s', List.mem_cons_of_mem s hs', hx'⟩

/-- Without interleaving no two records of the aggregate share the same
(slot, source URL) pair, provided the enabled slots have distinct names. -/
theorem archive_sequential_nodup (tbl : SlotTable) (opts : Options) (wbrc : Broker)
    (MatchURL : String → List String) (text : String)
    (hu : MatchURL text ≠ []) (hgs : (enabledSlots opts).Nodup)
    (hinj : ∀ s ∈ enabledSlots opts, ∀ s' ∈ enabledSlots opts,
      tbl.SlotName s = tbl.SlotName s' → s = s')
    (hkeys : ∀ s ∈ enabledSlots opts,
      ((slotMap tbl wbrc (MatchURL text) s).map Prod.fst).Nodup) :
    (recordKeys (archive tbl opts wbrc MatchURL [] text).tc).Nodup := by
  rw [archive_sequential tbl opts wbrc MatchURL text hu]
  exact (recordKeys_flatten_nodup tbl wbrc (MatchURL text) (enabledSlots opts) hgs hinj hkeys).1

theorem slotPairs_append (name : String) (a b : template.Collector) :
    slotPairs name (a ++ b) = slotPairs name a ++ slotPairs name b := by
  simp [slotPairs]

theorem slotPairs_slotRecords (tbl : SlotTable) (wbrc : Broker) (urls : List String)
    (slot name : String) :
    slotPairs name (slotRecords tbl wbrc urls slot) =
      if tbl.SlotName slot = name then slotMap tbl wbrc urls slot else [] := by
  rw [slotRecords_eq]
  by_cases h : tbl.SlotName slot = name
  · simp [slotPairs, h, List.filter_map, Function.comp_def]
  · simp [slotPairs, h, List.filter_map, Function.comp_def]

theorem slotPairs_flatten (tbl : SlotTable) (wbrc : Broker) (urls : List String)
    (gs : List String) (y : String) (hgs : gs.Nodup) (hy : y ∈ gs)
    (hinj : ∀ s ∈ gs, tbl.SlotName s = tbl.SlotName y → s = y) :
    slotPairs (tbl.SlotName y) ((gs.map (slotRecords tbl wbrc urls)).flatten) =
      slotMap tbl wbrc urls y := by
  have hnone : ∀ l : List String, y ∉ l → (∀ s ∈ l, tbl.SlotName s = tbl.SlotName y → s = y) →
      slotPairs (tbl.SlotName y) ((l.map (slotRecords tbl wbrc urls)).flatten) = [] := by
    intro l
    induction l with
    | nil => intro _ _; rfl
    | cons s l ih =>
      intro hyl hl
      have hne : tbl.SlotName s ≠ tbl.SlotName y := by
        intro h
        exact hyl (hl s (List.mem_cons_self s l) h ▸ List.mem_cons_self s l)
      simp only [List.map_cons, List.flatten_cons, slotPairs_append, slotPairs_slotRecords,
        if_neg hne, List.nil_append]
      exact ih (fun h => hyl (List.mem_cons_of_mem s h))
        (fun a ha => hl a (List.mem_cons_of_mem s ha))
  induction gs with
  | nil => cases hy
  | cons s gs ih =>
    obtain ⟨hs, hgs'⟩ := List.nodup_cons.mp hgs
    simp only [List.map_cons, List.flatten_cons, slotPairs_append, slotPairs_slotRecords]
    by_cases hsy : s = y
    · subst hsy
      rw [if_pos rfl, hnone gs hs (fun a ha => hinj a (List.mem_cons_of_mem s ha))]
      simp
    · have hne : tbl.SlotName s ≠ tbl.SlotName y :=
        fun h => hsy (hinj s (List.mem_cons_self s gs) h)
      have hy' : y ∈ gs := by
        rcases List.mem_cons.mp hy with h | h
        · exact absurd h.symm hsy
        · exact h
      rw [if_neg hne, List.nil_append]
      exact ih hgs' hy' (fun a ha => hinj a (List.mem_cons_of_mem s ha))

/-- Without interleaving the claim of C9 holds: the records of an enabled slot `y` are
exactly the pairs of the mapping returned by the broker of `y`, whatever the brokers
of the other slots return. -/
theorem archive_sequential_slotPairs (tbl : SlotTable) (opts : Options) (wbrc : Broker)
    (MatchURL : String → List String) (text : String) (y : String)
    (hu : MatchURL text ≠ []) (hgs : (enabledSlots opts).Nodup) (hy : y ∈ enabledSlots opts)
    (hinj : ∀ s ∈ enabledSlots opts, tbl.SlotName s = tbl.SlotName y → s = y) :
    slotPairs (tbl.SlotName y) (archive tbl opts wbrc MatchURL [] text).tc =
      slotMap tbl wbrc (MatchURL text) y := by
  rw [archive_sequential tbl opts wbrc MatchURL text hu]
  exact slotPairs_flatten tbl wbrc (MatchURL text) (enabledSlots opts) y hgs hy hinj

end anonymity

/-! ## Theorems: every run of the archive dispatcher is a complete run -/

namespace anonymity

open config

theorem stepSlot_pcs (tbl : SlotTable) (wbrc : Broker) (urls : List String)
    (slot : String) (pc : Pc) (m : Mem) :
    (stepSlot tbl wbrc urls slot pc m).2.pcs = m.pcs := by
  cases pc with
  | start =>
    unfold stepSlot
    cases dispatch tbl wbrc urls slot <;> rfl
  | _ => rfl

theorem rank_done (pc : Pc) (h : 5 ≤ pc.rank) : pc = Pc.done := by
  cases pc <;> simp [Pc.rank] at h ⊢

theorem stepSlot_rank (tbl : SlotTable) (wbrc : Broker) (urls : List String)
    (slot : String) (pc : Pc) (m : Mem) :
    min 5 (pc.rank + 1) ≤ (stepSlot tbl wbrc urls slot pc m).1.rank := by
  cases pc with
  | start =>
    unfold stepSlot
    cases dispatch tbl wbrc urls slot <;> simp [Pc.rank]
  | _ => simp [stepSlot, Pc.rank]

theorem step_length (tbl : SlotTable) (wbrc : Broker) (urls : List String)
    (gs : List String) (m : Mem) (i : Nat) :
    (step tbl wbrc urls gs m i).pcs.length = m.pcs.length := by
  unfold step
  cases gs[i]? with
  | none => rfl
  | some slot =>
    cases m.pcs[i]? with
    | none => rfl
    | some pc => simp [stepSlot_pcs]

theorem step_other (tbl : SlotTable) (wbrc : Broker) (urls : List String)
    (gs : List String) (m : Mem) (i j : Nat) (hij : i ≠ j) :
    (step tbl wbrc urls gs m i).pcs[j]? = m.pcs[j]? := by
  unfold step
  cases gs[i]? with
  | none => rfl
  | some slot =>
    cases m.pcs[i]? with
    | none => rfl
    | some pc => simp [stepSlot_pcs, List.getElem?_set_ne hij]

theorem step_self (tbl : SlotTable) (wbrc : Broker) (urls : List String)
    (gs : List String) (m : Mem) (i : Nat) (slot : String) (pc : Pc)
    (hg : gs[i]? = some slot) (hp : m.pcs[i]? = some pc) :
    (step tbl wbrc urls gs m i).pcs[i]? = some (stepSlot tbl wbrc urls slot pc m).1 := by
  have hi : i < m.pcs.length := by
    rcases Nat.lt_or_ge i m.pcs.length with h | h
    · exact h
    · rw [List.getElem?_eq_none h] at hp
      cases hp
  simp [step, hg, hp, stepSlot_pcs, hi]

theorem foldl_step_rank (tbl : SlotTable) (wbrc : Broker) (urls : List String)
    (gs : List String) (i : Nat) (slot : String) (hg : gs[i]? = some slot) (k : Nat)
    (m : Mem) (pc : Pc) (hp : m.pcs[i]? = some pc) :
    ∃ qc, ((List.replicate k i).foldl (step tbl wbrc urls gs) m).pcs[i]? = some qc ∧
      min 5 (pc.rank + k) ≤ qc.rank := by
  induction k generalizing m pc with
  | zero => exact ⟨pc, hp, by simp⟩
  | succ k ih =>
    obtain ⟨qc, h1, h2⟩ := ih (step tbl wbrc urls gs m i) _
      (step_self tbl wbrc urls gs m i slot pc hg hp)
    refine ⟨qc, by simpa [List.replicate_succ] using h1, ?_⟩
    have := stepSlot_rank tbl wbrc urls slot pc m
    omega

/-- Running goroutine `i` to its end leaves it done, keeps the other goroutines where
they are and keeps their number. -/
theorem runToEnd_done (tbl : SlotTable) (wbrc : Broker) (urls : List String)
    (gs : List String) (m : Mem) (i : Nat) (hi : i < gs.length) (hm : m.pcs.length = gs.length) :
    (runToEnd tbl wbrc urls gs m i).pcs[i]? = some Pc.done ∧
    (runToEnd tbl wbrc urls gs m i).pcs.length = gs.length ∧
    ∀ j, i ≠ j → (runToEnd tbl wbrc urls gs m i).pcs[j]? = m.pcs[j]? := by
  have hg : gs[i]? = some gs[i] := List.getElem?_eq_getElem hi
  have hp : m.pcs[i]? = some m.pcs[i] := List.getElem?_eq_getElem (by omega)
  obtain ⟨qc, h1, h2⟩ := foldl_step_rank tbl wbrc urls gs i gs[i] hg 5 m m.pcs[i] hp
  have hq : qc = Pc.done := rank_done qc (by omega)
  refine ⟨by rw [runToEnd, h1, hq], ?_, ?_⟩
  · simp [runToEnd, List.replicate, step_length, hm]
  · intro j hij
    simp [runToEnd, List.replicate, step_other _ _ _ _ _ _ _ hij]

/-- When `wg.Wait()` has returned, every slot goroutine is done: the result of
`archive` is read from the memory of a complete run, whatever the schedule. -/
theorem finish_all_done (tbl : SlotTable) (wbrc : Broker) (urls : List String)
    (gs : List String) (m : Mem) (hm : m.pcs.length = gs.length) :
    ∀ j, j < gs.length → (finish tbl wbrc urls gs m).pcs[j]? = some Pc.done := by
  have key : ∀ k, k ≤ gs.length →
      ((List.range k).foldl (runToEnd tbl wbrc urls gs) m).pcs.length = gs.length ∧
      ∀ j, j < k →
        ((List.range k).foldl (runToEnd tbl wbrc urls gs) m).pcs[j]? = some Pc.done := by
    intro k
    induction k with
    | zero =>
      intro _
      exact ⟨hm, fun j hj => absurd hj (Nat.not_lt_zero j)⟩
    | succ k ih =>
      intro hk
      obtain ⟨hl, hd⟩ := ih (Nat.le_of_succ_le hk)
      obtain ⟨h1, h2, h3⟩ := runToEnd_done tbl wbrc urls gs
        ((List.range k).foldl (runToEnd tbl wbrc urls gs) m) k hk hl
      rw [List.range_succ, List.foldl_append]
      simp only [List.foldl_cons, List.foldl_nil]
      refine ⟨h2, ?_⟩
      intro j hj
      by_cases hjk : k = j
      · subst hjk
        exact h1
      · rw [h3 j hjk]
        exact hd j (by omega)
  intro j hj
  exact (key gs.length (Nat.le_refl _)).2 j hj

theorem foldl_step_length (tbl : SlotTable) (wbrc : Broker) (urls : List String)
    (gs : List String) (sched : List Nat) (m : Mem) :
    (sched.foldl (step tbl wbrc urls gs) m).pcs.length = m.pcs.length := by
  induction sched generalizing m with
  | nil => rfl
  | cons i is ih => rw [List.foldl_cons, ih, step_length]

/-- Under every schedule the memory `archive` reads its result from is the memory of
a run in which every started goroutine has finished. -/
theorem archive_run_complete (tbl : SlotTable) (wbrc : Broker) (urls : List String)
    (gs : List String) (sched : List Nat) :
    ∀ j, j < gs.length →
      (finish tbl wbrc urls gs
        (sched.foldl (step tbl wbrc urls gs) (initMem gs))).pcs[j]? = some Pc.done := by
  apply finish_all_done
  rw [foldl_step_length]
  simp [initMem]

end anonymity

/-! ## Theorems: destinations in the aggregate -/

namespace anonymity

open config

theorem step_out (tbl : SlotTable) (wbrc : Broker) (urls : List String)
    (gs : List String) (m : Mem) (i : Nat) (h : gs[i]? = none) :
    step tbl wbrc urls gs m i = m := by
  simp [step, h]

theorem step_done (tbl : SlotTable) (wbrc : Broker) (urls : List String)
    (gs : List String) (m : Mem) (i : Nat) (hp : m.pcs[i]? = some Pc.done) :
    (step tbl wbrc urls gs m i).tc = m.tc ∧
    (step tbl wbrc urls gs m i).pcs[i]? = some Pc.done := by
  cases hg : gs[i]? with
  | none =>
    rw [step_out tbl wbrc urls gs m i hg]
    exact ⟨rfl, hp⟩
  | some slot =>
    refine ⟨?_, ?_⟩
    · simp [step, hg, hp, stepSlot]
    · rw [step_self tbl wbrc urls gs m i slot Pc.done hg hp]
      rfl

/-- A goroutine that is done leaves the aggregate as it is. -/
theorem runToEnd_tc_done (tbl : SlotTable) (wbrc : Broker) (urls : List String)
    (gs : List String) (m : Mem) (i : Nat) (hp : m.pcs[i]? = some Pc.done) :
    (runToEnd tbl wbrc urls gs m i).tc = m.tc := by
  have key : ∀ (k : Nat) (n : Mem), n.pcs[i]? = some Pc.done →
      ((List.replicate k i).foldl (step tbl wbrc urls gs) n).tc = n.tc := by
    intro k
    induction k with
    | zero => intro n _; rfl
    | succ k ih =>
      intro n hn
      obtain ⟨h1, h2⟩ := step_done tbl wbrc urls gs n i hn
      rw [List.replicate_succ, List.foldl_cons, ih _ h2, h1]
  exact key 5 m hp

theorem slotRecords_nonBlank (tbl : SlotTable) (wbrc : Broker) (urls : List String)
    (slot : String) (h : nonBlankMap (slotMap tbl wbrc urls slot)) :
    nonBlank (slotRecords tbl wbrc urls slot) := by
  intro r hr
  rw [slotRecords_eq] at hr
  obtain ⟨e, he, rfl⟩ := List.mem_map.mp hr
  exact h e he

/-- Running one goroutine to its end, from a memory in which every goroutine is
either not started or done, keeps blank destinations out of the aggregate and
leaves every goroutine not started or done. -/
theorem runToEnd_nonBlank (tbl : SlotTable) (wbrc : Broker) (urls : List String)
    (gs : List String) (hb : ∀ s ∈ gs, nonBlankMap (slotMap tbl wbrc urls s))
    (m : Mem) (i : Nat)
    (hm : m.pcs.length = gs.length ∧ nonBlank m.tc ∧
      ∀ j, j < gs.length → m.pcs[j]? = some Pc.start ∨ m.pcs[j]? = some Pc.done) :
    (runToEnd tbl wbrc urls gs m i).pcs.length = gs.length ∧
    nonBlank (runToEnd tbl wbrc urls gs m i).tc ∧
    ∀ j, j < gs.length →
      (runToEnd tbl wbrc urls gs m i).pcs[j]? = some Pc.start ∨
      (runToEnd tbl wbrc urls gs m i).pcs[j]? = some Pc.done := by
  obtain ⟨hlen, htc, hpcs⟩ := hm
  rcases Nat.lt_or_ge i gs.length with hi | hi
  · obtain ⟨h1, h2, h3⟩ := runToEnd_done tbl wbrc urls gs m i hi hlen
    have hg : gs[i]? = some gs[i] := List.getElem?_eq_getElem hi
    refine ⟨h2, ?_, ?_⟩
    · rcases hpcs i hi with hs | hd
      · rw [(runToEnd_start tbl wbrc urls gs m i gs[i] hg hs).1]
        intro r hr
        rcases List.mem_append.mp hr with h | h
        · exact htc r h
        · exact slotRecords_nonBlank tbl wbrc urls gs[i]
            (hb gs[i] (List.getElem_mem hi)) r h
      · rw [runToEnd_tc_done tbl wbrc urls gs m i hd]
        exact htc
    · intro j hj
      by_cases hij : i = j
      · subst hij
        exact Or.inr h1
      · rw [h3 j hij]
        exact hpcs j hj
  · have hg : gs[i]? = none := List.getElem?_eq_none hi
    have hrun : runToEnd tbl wbrc urls gs m i = m := by
      simp [runToEnd, List.replicate, step_out tbl wbrc urls gs _ i hg]
    rw [hrun]
    exact ⟨hlen, htc, hpcs⟩

theorem foldl_runToEnd_nonBlank (tbl : SlotTable) (wbrc : Broker) (urls : List String)
    (gs : List String) (hb : ∀ s ∈ gs, nonBlankMap (slotMap tbl wbrc urls s))
    (order : List Nat) (m : Mem)
    (hm : m.pcs.length = gs.length ∧ nonBlank m.tc ∧
      ∀ j, j < gs.length → m.pcs[j]? = some Pc.start ∨ m.pcs[j]? = some Pc.done) :
    (order.foldl (runToEnd tbl wbrc urls gs) m).pcs.length = gs.length ∧
    nonBlank (order.foldl (runToEnd tbl wbrc urls gs) m).tc ∧
    ∀ j, j < gs.length →
      (order.foldl (runToEnd tbl wbrc urls gs) m).pcs[j]? = some Pc.start ∨
      (order.foldl (runToEnd tbl wbrc urls gs) m).pcs[j]? = some Pc.done := by
  induction order generalizing m with
  | nil => exact hm
  | cons i is ih => exact ih _ (runToEnd_nonBlank tbl wbrc urls gs hb m i hm)

/-- Under the schedule `oneAfterTheOther order` the listed goroutines are run to
their end one by one. -/
theorem foldl_oneAfterTheOther (tbl : SlotTable) (wbrc : Broker) (urls : List String)
    (gs : List String) (order : List Nat) (m : Mem) :
    (oneAfterTheOther order).foldl (step tbl wbrc urls gs) m =
      order.foldl (runToEnd tbl wbrc urls gs) m := by
  induction order generalizing m with
  | nil => rfl
  | cons i is ih =>
    have h : oneAfterTheOther (i :: is) = List.replicate 5 i ++ oneAfterTheOther is := by
      simp [oneAfterTheOther]
    rw [h, List.foldl_append, ih]
    rfl

/-- C7 (as stated) fails when a broker answers with a blank destination: `transform`
copies it into the aggregate. -/
theorem archive_blank_destination :
    ∃ r ∈ (archive sampleTable onlyIA blankBroker sampleMatchURL [] "https://example.com/").tc,
      r.Dst = "" := by
  decide

/-- C7 (amended): for every input text, every set of enabled slots and every broker
whose mappings for the enabled slots hold non-empty destinations only, every record
of the aggregate returned by `archive` has a non-empty destination when the slot
goroutines run one after the other, in any order; nothing is stated for goroutines
whose accesses to the aggregate overlap. -/
theorem archive_nonBlank (tbl : SlotTable) (opts : Options) (wbrc : Broker)
    (MatchURL : String → List String) (order : List Nat) (text : String)
    (hb : ∀ s ∈ enabledSlots opts, nonBlankMap (slotMap tbl wbrc (MatchURL text) s)) :
    ∀ r ∈ (archive tbl opts wbrc MatchURL (oneAfterTheOther order) text).tc, r.Dst ≠ "" := by
  unfold archive
  by_cases hu : (MatchURL text).length = 0
  · simp only [hu, if_true]
    intro r hr
    simp only [transform, List.nil_append, List.map_cons, List.map_nil, List.mem_singleton] at hr
    rw [hr]
    show "URL no found" ≠ ""
    decide
  · simp only [hu, if_false]
    have h0 : (initMem (enabledSlots opts)).pcs.length = (enabledSlots opts).length ∧
        nonBlank (initMem (enabledSlots opts)).tc ∧
        ∀ j, j < (enabledSlots opts).length →
          (initMem (enabledSlots opts)).pcs[j]? = some Pc.start ∨
          (initMem (enabledSlots opts)).pcs[j]? = some Pc.done := by
      refine ⟨?_, ?_, ?_⟩
      · simp [initMem]
      · intro r hr
        cases hr
      · intro j hj
        left
        simp [initMem, hj]
    rw [foldl_oneAfterTheOther]
    exact (foldl_runToEnd_nonBlank tbl wbrc _ _ hb (List.range (enabledSlots opts).length) _
      (foldl_runToEnd_nonBlank tbl wbrc _ _ hb order _ h0)).2.1

theorem sampleBroker_enabled_nonBlank :
    ∀ s ∈ enabledSlots publish.sampleOpts,
      nonBlankMap (slotMap sampleTable sampleBroker (sampleMatchURL "https://example.com/") s) := by
  intro s hs
  have hen : enabledSlots publish.sampleOpts = ["ia", "is"] := by decide
  rw [hen] at hs
  simp only [List.mem_cons, List.mem_singleton, List.not_mem_nil, or_false] at hs
  rcases hs with rfl | rfl
  · have hm : slotMap sampleTable sampleBroker (sampleMatchURL "https://example.com/") "ia" =
        [("https://example.com/", "https://web.archive.org/https://example.com/")] := by decide
    rw [hm]
    intro e he
    rw [List.mem_singleton.mp he]
    decide
  · have hm : slotMap sampleTable sampleBroker (sampleMatchURL "https://example.com/") "is" =
        [("https://example.com/", "https://archive.today/https://example.com/")] := by decide
    rw [hm]
    intro e he
    rw [List.mem_singleton.mp he]
    decide

/-- Witness for C7 (amended): the sample broker, IA and IS enabled, the goroutine of IS
running before the goroutine of IA. -/
theorem archive_nonBlank_witness :
    (∀ s ∈ enabledSlots publish.sampleOpts,
      nonBlankMap (slotMap sampleTable sampleBroker (sampleMatchURL "https://example.com/") s)) ∧
    ∀ r ∈ (archive sampleTable publish.sampleOpts sampleBroker sampleMatchURL
      (oneAfterTheOther [1, 0]) "https://example.com/").tc, r.Dst ≠ "" :=
  ⟨sampleBroker_enabled_nonBlank,
   archive_nonBlank sampleTable publish.sampleOpts sampleBroker sampleMatchURL [1, 0]
    "https://example.com/" sampleBroker_enabled_nonBlank⟩

end anonymity

/-! ## Theorems: the archive dispatcher when the goroutines interleave -/

namespace anonymity

open config

/-- C3 fails on the code: with the slots IA and IS enabled, one URL and both brokers
answering for it, the goroutine of IS loads the aggregate after the goroutine of IA
has loaded it and stores before IA stores; the store of IA then overwrites the
record of IS and the aggregate holds one record instead of `2 * 1`. -/
theorem archive_lost_update :
    enabledSlots publish.sampleOpts = ["ia", "is"] ∧
    sampleMatchURL "https://example.com/" = ["https://example.com/"] ∧
    (∀ s ∈ enabledSlots publish.sampleOpts,
      (slotMap sampleTable sampleBroker ["https://example.com/"] s).map Prod.fst =
        ["https://example.com/"]) ∧
    (archive sampleTable publish.sampleOpts sampleBroker sampleMatchURL [0, 0, 1, 1, 1, 0]
      "https://example.com/").tc =
      [{ Slot := "Internet Archive", Src := "https://example.com/",
         Dst := "https://web.archive.org/https://example.com/" }] ∧
    (archive sampleTable publish.sampleOpts sampleBroker sampleMatchURL [0, 0, 1, 1, 1, 0]
      "https://example.com/").tc.length ≠
      (enabledSlots publish.sampleOpts).length *
        (sampleMatchURL "https://example.com/").length := by
  decide

/-- C9 fails on the code: with the slots IA and IS enabled, the goroutine of IS loads
the aggregate before the goroutine of IA stores its record and stores afterwards, so
the aggregate holds no record of IA although the broker of IA returned one pair;
in a run where the goroutines do not interleave and the broker of IS omits the URL,
the record of IA is there. -/
theorem archive_slot_records_overwritten :
    slotMap sampleTable sampleBroker ["https://example.com/"] "ia" =
      [("https://example.com/", "https://web.archive.org/https://example.com/")] ∧
    slotPairs (sampleTable.SlotName "ia")
      (archive sampleTable publish.sampleOpts sampleBroker sampleMatchURL [1, 1, 0, 0, 0, 1]
        "https://example.com/").tc = [] ∧
    slotPairs (sampleTable.SlotName "ia")
      (archive sampleTable publish.sampleOpts omittingBroker sampleMatchURL []
        "https://example.com/").tc =
      [("https://example.com/", "https://web.archive.org/https://example.com/")] := by
  decide

/-- The scenario of C3: the text "https://example.com/" with the single slot IA enabled
gives exactly one record, with the name of IA, the URL and the destination returned
by the broker. -/
theorem archive_single_slot :
    (archive sampleTable onlyIA sampleBroker sampleMatchURL [] "https://example.com/").tc =
      [{ Slot := "Internet Archive", Src := "https://example.com/",
         Dst := "https://web.archive.org/https://example.com/" }] := by
  decide

end anonymity
